import Mathlib

/-!
# Verification of the `oars` orthogonal-array library

A shallow embedding, in Lean 4, of the construction and verification engine of
the `oars` Rust crate: the Bose and Bush orthogonal-array (OA) constructors,
the exhaustive OA verifier, the strong-orthogonal-array (SOA) verifier, and
the He–Tang and Liu–Liu OA→SOA pipelines.  Machine `usize` arithmetic is
modelled over `Nat` with explicit wrap-around where the source can overflow,
and fallible paths (Rust panics / `Err` returns) are modelled by an explicit
outcome type.
-/

namespace Oars

/-- The outcome of running a Rust function that may return an error value
(`Err`) or abort with a panic.  `ok` models a normal `Ok` return, `err` an
`Err` return, `panicked` an uncaught panic (including index-out-of-bounds
and arithmetic-overflow aborts). -/
inductive Outcome (α : Type) where
  | ok (a : α) : Outcome α
  | err : Outcome α
  | panicked : Outcome α
  deriving Repr, DecidableEq

/-- A dense 2-D matrix of natural numbers, as `ndarray::Array2` stores it:
the column count of the allocation together with the rows.  A matrix is
well-formed when every row has exactly `ncols` entries. -/
structure Mat where
  ncols : Nat
  rows : List (List Nat)
  deriving Repr, DecidableEq

/-- Entry `(i, j)` of a matrix, with a default of `0` out of bounds (the
constructors below only read entries that exist). -/
def Mat.get (m : Mat) (i j : Nat) : Nat :=
  (m.rows.getD i []).getD j 0

/-- The number of rows of a matrix (`shape()[0]` in `ndarray`). -/
def Mat.nrows (m : Mat) : Nat := m.rows.length

/-- The orthogonal-array structure `OA` from `oa.rs`: the level count `s`,
strength `t`, factor (column) count `m`, index `λ`, and the point matrix. -/
structure OArr where
  levels : Nat
  strength : Nat
  factors : Nat
  index : Nat
  points : Mat
  deriving Repr, DecidableEq

/-- The strong-orthogonal-array structure `SOA` from `soa.rs`. -/
structure SOArr where
  strength : Nat
  base : Nat
  points : Mat
  deriving Repr, DecidableEq

/-! ## `utils.rs`: fixed-width base conversion and polynomial evaluation -/

/-- `to_base_fixed` from `utils.rs`: the `degree` least-significant base-`base`
digits of `num`, least-significant digit first (zero-padded, truncating). -/
def to_base_fixed (num base degree : Nat) : List Nat :=
  match degree with
  | 0 => []
  | d + 1 => num % base :: to_base_fixed (num / base) base d

/-- `poly_eval` from `utils.rs`: evaluate a coefficient vector (lowest degree
first) at `base` by Horner's rule, folding over the reversed list. -/
def poly_eval (coeffs : List Nat) (base : Nat) : Nat :=
  coeffs.reverse.foldl (fun result c => result * base + c) 0

/-! ## `usize` arithmetic -/

/-- Wrap-around subtraction of one on a 64-bit `usize`, the release-mode
semantics of the `i - 1` expressions in `bush.rs` (in debug builds the same
expression aborts with a subtraction-overflow panic when `i = 0`). -/
def usizeSub1 (i : Nat) : Nat := (i + (2 ^ 64 - 1)) % 2 ^ 64

/-- Unfolding `poly_eval` on a cons cell: the head is the constant term. -/
theorem poly_eval_cons (x : Nat) (l : List Nat) (base : Nat) :
    poly_eval (x :: l) base = poly_eval l base * base + x := by
  unfold poly_eval
  rw [List.reverse_cons, List.foldl_append]
  rfl

/-- Evaluating the fixed-width digit vector of `num` recovers `num` modulo
`base ^ degree`. -/
theorem poly_eval_to_base_fixed (base : Nat) :
    ∀ degree num : Nat,
      poly_eval (to_base_fixed num base degree) base = num % base ^ degree := by
  intro degree
  induction degree with
  | zero => intro num; simp [to_base_fixed, poly_eval, Nat.mod_one]
  | succ d ih =>
      intro num
      rw [to_base_fixed, poly_eval_cons, ih (num / base), pow_succ',
        Nat.mod_mul]
      ring

/-- Every digit produced by `to_base_fixed` is below the base. -/
theorem to_base_fixed_lt (base : Nat) (hb : 1 ≤ base) :
    ∀ degree num : Nat, ∀ x ∈ to_base_fixed num base degree, x < base := by
  intro degree
  induction degree with
  | zero => intro num x hx; simp [to_base_fixed] at hx
  | succ d ih =>
      intro num x hx
      rw [to_base_fixed] at hx
      rcases List.mem_cons.mp hx with h | h
      · exact h ▸ Nat.mod_lt _ hb
      · exact ih (num / base) x h

/-- C10: for every non-negative integer `num`, `base ≥ 2` and `degree ≥ 0`,
evaluating the digit vector produced by `to_base_fixed num base degree` back
at `base` with `poly_eval` yields `num mod base^degree`; in particular the
round trip is the identity whenever `num < base^degree`, and every digit
produced lies in `[0, base)`. -/
theorem spec_c10_to_base_fixed_poly_eval_roundtrip
    (num base degree : Nat) (hb : 2 ≤ base) :
    poly_eval (to_base_fixed num base degree) base = num % base ^ degree ∧
    (∀ x ∈ to_base_fixed num base degree, x < base) ∧
    (num < base ^ degree →
      poly_eval (to_base_fixed num base degree) base = num) := by
  refine ⟨poly_eval_to_base_fixed base degree num,
    to_base_fixed_lt base (le_trans one_le_two hb) degree num, fun h => ?_⟩
  rw [poly_eval_to_base_fixed base degree num, Nat.mod_eq_of_lt h]

/-- Witness for C10 at `num = 5`, `base = 2`, `degree = 3`. -/
theorem spec_c10_witness :
    poly_eval (to_base_fixed 5 2 3) 2 = 5 % 2 ^ 3 ∧
    (∀ x ∈ to_base_fixed 5 2 3, x < 2) ∧
    (5 < 2 ^ 3 → poly_eval (to_base_fixed 5 2 3) 2 = 5) :=
  spec_c10_to_base_fixed_poly_eval_roundtrip 5 2 3 (by decide)

/-! ## The Bose constructor (`constructors/bose.rs`) -/

/-- `Bose::verify_params`: the dimension count must lie in `[2, p + 1]` and
the base must be prime (`primes::is_prime`, modelled as `Nat.Prime`). -/
def boseVerifyParams (prime_base dimensions : Nat) : Bool :=
  if dimensions < 2 || prime_base + 1 < dimensions then false
  else if !(decide (Nat.Prime prime_base)) then false
  else true

/-- Cell `(i, j)` of the Bose point matrix: the loops of `Bose::gen` first set
column 0 to `i / p` and column 1 to `i % p`, then every column `j ≥ 2` to
`(points[i][0] + (j - 1) * points[i][1]) % p`. -/
def boseCell (p i j : Nat) : Nat :=
  if j = 0 then i / p
  else if j = 1 then i % p
  else (i / p + (j - 1) * (i % p)) % p

/-- The body of `Bose::gen` (the unchecked `oars` variant runs exactly this):
a `p² × dimensions` matrix of `boseCell` values with the Bose metadata. -/
def boseGenCore (p d : Nat) : OArr :=
  { levels := p, strength := 2, factors := d, index := 1,
    points := ⟨d, (List.range (p ^ 2)).map fun i =>
      (List.range d).map fun j => boseCell p i j⟩ }

/-- `Bose::gen` from `src/constructors/bose.rs`: validate the parameters,
then build the point matrix. -/
def boseGen (p d : Nat) : Outcome OArr :=
  if boseVerifyParams p d then .ok (boseGenCore p d) else .err

/-- The body of `Bose::gen_par`: the two seed columns are built first as
`initial_points`, every remaining column `col_idx` of the dependent block is
`(initial[i][0] + (col_idx + 1) * initial[i][1]) % p`, and the two blocks are
concatenated along the column axis. -/
def boseGenParCore (p d : Nat) : OArr :=
  { levels := p, strength := 2, factors := d, index := 1,
    points := ⟨2 + (d - 2), (List.range (p ^ 2)).map fun i =>
      [i / p, i % p] ++
        (List.range (d - 2)).map fun c => (i / p + (c + 1) * (i % p)) % p⟩ }

/-- `Bose::gen_par` with the same eager parameter validation as `gen`. -/
def boseGenPar (p d : Nat) : Outcome OArr :=
  if boseVerifyParams p d then .ok (boseGenParCore p d) else .err

/-- Reading a mapped range at an in-range index. -/
theorem getD_map_range {α : Type} (n i : Nat) (h : i < n) (f : Nat → α)
    (dflt : α) : ((List.range n).map f).getD i dflt = f i := by
  rw [List.getD_eq_getElem?_getD, List.getElem?_map, List.getElem?_range h]
  rfl

/-- A cell of the matrix built by `boseGenCore`, at an in-range position. -/
theorem boseGenCore_get (p d i j : Nat) (hi : i < p ^ 2) (hj : j < d) :
    (boseGenCore p d).points.get i j = boseCell p i j := by
  unfold boseGenCore Mat.get
  simp only
  rw [getD_map_range (p ^ 2) i hi, getD_map_range d j hj]

/-- C1: for every prime `p` and dimension count `m` with `2 ≤ m ≤ p + 1`,
`Bose::gen` returns an OA with `levels = p`, `strength = 2`, `index = 1` and
a `p² × m` point matrix in which, for every row `i`, column 0 holds `i / p`,
column 1 holds `i % p`, and every column `j ≥ 2` holds
`(points[i][0] + (j - 1) * points[i][1]) % p`; in particular
`Bose(prime_base = 3, dimensions = 3)` yields exactly the stated 9×3
matrix. -/
theorem spec_c1_bose_gen :
    (∀ p m : Nat, Nat.Prime p → 2 ≤ m → m ≤ p + 1 →
      ∃ oa : OArr, boseGen p m = .ok oa ∧ oa.levels = p ∧ oa.strength = 2 ∧
        oa.index = 1 ∧ oa.factors = m ∧ oa.points.nrows = p ^ 2 ∧
        oa.points.ncols = m ∧
        ∀ i, i < p ^ 2 →
          oa.points.get i 0 = i / p ∧ oa.points.get i 1 = i % p ∧
          ∀ j, 2 ≤ j → j < m →
            oa.points.get i j =
              (oa.points.get i 0 + (j - 1) * oa.points.get i 1) % p) ∧
    boseGen 3 3 = .ok
      { levels := 3, strength := 2, factors := 3, index := 1,
        points := ⟨3, [[0, 0, 0], [0, 1, 1], [0, 2, 2], [1, 0, 1], [1, 1, 2],
          [1, 2, 0], [2, 0, 2], [2, 1, 0], [2, 2, 1]]⟩ } := by
  constructor
  · intro p m hp h2 hpm
    have hparams : boseVerifyParams p m = true := by
      unfold boseVerifyParams
      simp [Nat.not_lt.mpr h2, Nat.not_lt.mpr hpm, hp]
    refine ⟨boseGenCore p m, ?_, rfl, rfl, rfl, rfl, ?_, rfl, ?_⟩
    · unfold boseGen
      rw [hparams]
      simp
    · unfold boseGenCore Mat.nrows
      simp
    · intro i hi
      have h0 : (boseGenCore p m).points.get i 0 = i / p := by
        rw [boseGenCore_get p m i 0 hi (by omega)]; rfl
      have h1 : (boseGenCore p m).points.get i 1 = i % p := by
        rw [boseGenCore_get p m i 1 hi (by omega)]; rfl
      refine ⟨h0, h1, fun j hj2 hjm => ?_⟩
      rw [boseGenCore_get p m i j hi hjm, h0, h1]
      unfold boseCell
      rw [if_neg (by omega), if_neg (by omega)]
  · decide

/-- Witness for C1 at `p = 3`, `m = 3`. -/
theorem spec_c1_witness :
    ∃ oa : OArr, boseGen 3 3 = .ok oa ∧ oa.levels = 3 ∧ oa.strength = 2 ∧
      oa.index = 1 ∧ oa.factors = 3 ∧ oa.points.nrows = 3 ^ 2 ∧
      oa.points.ncols = 3 ∧
      ∀ i, i < 3 ^ 2 →
        oa.points.get i 0 = i / 3 ∧ oa.points.get i 1 = i % 3 ∧
        ∀ j, 2 ≤ j → j < 3 →
          oa.points.get i j =
            (oa.points.get i 0 + (j - 1) * oa.points.get i 1) % 3 :=
  spec_c1_bose_gen.1 3 3 (by norm_num) (by norm_num) (by norm_num)

/-! ## The Bush constructor (`constructors/bush.rs`) -/

/-- `BushChecked::verify`: the base must be prime, dimensions in `[2, p + 1]`
and strength in `[1, p]`. -/
def bushVerifyParams (prime_base strength dimensions : Nat) : Bool :=
  if !(decide (Nat.Prime prime_base)) then false
  else if dimensions < 2 || prime_base + 1 < dimensions then false
  else if strength < 1 || prime_base < strength then false
  else true

/-- Cell `(i, j)` of the matrix built by `Bush::gen`: columns below
`min(dimensions, prime_base)` evaluate the base-`p` digit polynomial of the
row index at `x = j` modulo `p`; when `dimensions = p + 1` the extra column
`p` holds `T::from(i - 1).unwrap() % p`, where `i - 1` is computed on
`usize` (wrap-around at `2^64` in release builds); all other cells keep the
zero the matrix was allocated with. -/
def bushCell (p t d i j : Nat) : Nat :=
  if j < min d p then poly_eval (to_base_fixed i p t) j % p
  else if d = p + 1 ∧ j = p then usizeSub1 i % p
  else 0

/-- The body of `Bush::gen`: a `p^t × dimensions` matrix of `bushCell`
values with the Bush metadata. -/
def bushGen (p t d : Nat) : OArr :=
  { levels := p, strength := t, factors := d, index := 1,
    points := ⟨d, (List.range (p ^ t)).map fun i =>
      (List.range d).map fun j => bushCell p t d i j⟩ }

/-- The body of `Bush::gen_par`: `initial_points` is an
`n × min(dimensions, prime_base)` block of polynomial evaluations per row;
when `dimensions = p + 1` a one-column block holding
`T::from(row_idx - 1).unwrap() % p` is stacked to its right. -/
def bushGenPar (p t d : Nat) : OArr :=
  { levels := p, strength := t, factors := d, index := 1,
    points := ⟨if d = p + 1 then min d p + 1 else min d p,
      (List.range (p ^ t)).map fun i =>
        ((List.range (min d p)).map fun j =>
          poly_eval (to_base_fixed i p t) j % p) ++
          (if d = p + 1 then [usizeSub1 i % p] else [])⟩ }

/-- The `construct` contract of the spec for Bush: validate eagerly
(`BushChecked::verify`), then run `Bush::gen`. -/
def bushConstruct (p t d : Nat) : Outcome OArr :=
  if bushVerifyParams p t d then .ok (bushGen p t d) else .err

/-- The parallel counterpart: validate, then run `Bush::gen_par`. -/
def bushConstructPar (p t d : Nat) : Outcome OArr :=
  if bushVerifyParams p t d then .ok (bushGenPar p t d) else .err

/-- For dimension counts in `[2, p + 1]` the sequential and parallel Bose
bodies build identical structures. -/
theorem boseGenCore_eq_par (p d : Nat) (h2 : 2 ≤ d) :
    boseGenCore p d = boseGenParCore p d := by
  have hrows : ∀ i : Nat,
      (List.range d).map (fun j => boseCell p i j) =
        [i / p, i % p] ++ (List.range (d - 2)).map
          (fun c => (i / p + (c + 1) * (i % p)) % p) := by
    intro i
    have hd : d = 2 + (d - 2) := by omega
    conv_lhs => rw [hd]
    rw [List.range_add, List.map_append, List.map_map]
    refine congrArg₂ (· ++ ·) ?_ ?_
    · show List.map (fun j => boseCell p i j) [0, 1] = _
      simp [boseCell]
    · refine List.map_congr_left fun c _ => ?_
      show boseCell p i (2 + c) = _
      unfold boseCell
      rw [if_neg (by omega), if_neg (by omega),
        show 2 + c - 1 = c + 1 by omega]
  unfold boseGenCore boseGenParCore
  rw [show 2 + (d - 2) = d by omega]
  exact congrArg (fun r => OArr.mk p 2 d 1 ⟨d, r⟩)
    (List.map_congr_left fun i _ => hrows i)

/-- For dimension counts at most `p + 1` the sequential and parallel Bush
bodies build identical structures. -/
theorem bushGen_eq_par (p t d : Nat) (hd : d ≤ p + 1) :
    bushGen p t d = bushGenPar p t d := by
  have hrows : ∀ i : Nat,
      (List.range d).map (fun j => bushCell p t d i j) =
        ((List.range (min d p)).map fun j =>
          poly_eval (to_base_fixed i p t) j % p) ++
          (if d = p + 1 then [usizeSub1 i % p] else []) := by
    intro i
    by_cases hcase : d = p + 1
    · subst hcase
      rw [if_pos rfl, Nat.min_eq_right (Nat.le_succ p), List.range_succ p,
        List.map_append]
      refine congrArg₂ (· ++ ·) ?_ ?_
      · refine List.map_congr_left fun j hj => ?_
        have hjp : j < p := List.mem_range.mp hj
        unfold bushCell
        rw [if_pos (by omega)]
      · show [bushCell p t (p + 1) i p] = _
        unfold bushCell
        rw [if_neg (by omega), if_pos ⟨rfl, rfl⟩]
    · have hdp : d ≤ p := by omega
      rw [if_neg hcase, Nat.min_eq_left hdp, List.append_nil]
      refine List.map_congr_left fun j hj => ?_
      have hjd : j < d := List.mem_range.mp hj
      unfold bushCell
      rw [if_pos (by omega)]
  unfold bushGen bushGenPar
  rw [show (if d = p + 1 then min d p + 1 else min d p) = d by
    by_cases hcase : d = p + 1
    · subst hcase; simp
    · rw [if_neg hcase, Nat.min_eq_left (by omega)]]
  exact congrArg (fun r => OArr.mk p t d 1 ⟨d, r⟩)
    (List.map_congr_left fun i _ => hrows i)

/-- C7: whenever the sequential and the parallel constructor of the same
construction method (Bose, Bush) both succeed on a parameter set, they
return OAs with bit-identical point matrices and identical metadata
(`levels`, `strength`, `factors`, `index`). -/
theorem spec_c7_seq_par_identical :
    (∀ p d : Nat, ∀ oa oa' : OArr, boseGen p d = .ok oa →
      boseGenPar p d = .ok oa' → oa = oa') ∧
    (∀ p t d : Nat, ∀ oa oa' : OArr, bushConstruct p t d = .ok oa →
      bushConstructPar p t d = .ok oa' → oa = oa') := by
  constructor
  · intro p d oa oa' hseq hpar
    unfold boseGen at hseq
    unfold boseGenPar at hpar
    by_cases hv : boseVerifyParams p d = true
    · rw [if_pos hv] at hseq hpar
      have h2 : 2 ≤ d := by
        by_contra hlt
        unfold boseVerifyParams at hv
        rw [if_pos (by simp; omega)] at hv
        exact Bool.false_ne_true hv
      cases hseq
      cases hpar
      exact boseGenCore_eq_par p d h2
    · rw [if_neg hv] at hseq
      exact absurd hseq (by simp)
  · intro p t d oa oa' hseq hpar
    unfold bushConstruct at hseq
    unfold bushConstructPar at hpar
    by_cases hv : bushVerifyParams p t d = true
    · rw [if_pos hv] at hseq hpar
      have hd : d ≤ p + 1 := by
        by_contra hgt
        unfold bushVerifyParams at hv
        rw [if_neg, if_pos (by simp; omega)] at hv
        · exact Bool.false_ne_true hv
        · simp only [Bool.not_eq_true', Bool.not_eq_false]
          by_contra hnp
          rw [Bool.not_eq_true] at hnp
          rw [if_pos (by simpa using hnp)] at hv
          exact Bool.false_ne_true hv
      cases hseq
      cases hpar
      exact bushGen_eq_par p t d hd
    · rw [if_neg hv] at hseq
      exact absurd hseq (by simp)

/-- Witness for C7 at Bose `p = 3, d = 3` and Bush `p = 2, t = 2, d = 3`. -/
theorem spec_c7_witness :
    boseGenCore 3 3 = boseGenParCore 3 3 ∧ bushGen 2 2 3 = bushGenPar 2 2 3 :=
  ⟨spec_c7_seq_par_identical.1 3 3 _ _ (by decide) (by decide),
    spec_c7_seq_par_identical.2 2 2 3 _ _ (by decide) (by decide)⟩

/-- C8 fails on the code: for `Bush(prime_base = 3, strength = 1,
dimensions = 4)` the extra column at index `p = 3` is computed from the
`usize` expression `i - 1`, which underflows at row `i = 0` (a panic in
debug builds; the wrap-around value `2^64 - 1` in release builds).  Row 0 of
the extra column therefore holds `(2^64 - 1) % 3 = 0`, whereas the claimed
value `(i - 1) mod p` at `i = 0` is `p - 1 = 2`. -/
theorem spec_c8_counterexample :
    (bushGen 3 1 4).points.rows =
      [[0, 0, 0, 0], [1, 1, 1, 0], [2, 2, 2, 1]] ∧
    (bushGen 3 1 4).points.get 0 3 = usizeSub1 0 % 3 ∧
    usizeSub1 0 % 3 = 0 ∧ ((0 : Int) - 1) % 3 = 2 ∧ (0 : Nat) ≠ 2 := by
  refine ⟨by decide, by decide, by decide, by decide, by decide⟩

/-! ## The OA verifier (`oa.rs`) -/

/-- `itertools`-style `combinations`: all selections of `k` elements of `l`
keeping the input order, in the order the `itertools` crate emits them. -/
def combinations {α : Type} : List α → Nat → List (List α)
  | _, 0 => [[]]
  | [], _ + 1 => []
  | x :: xs, k + 1 =>
      ((combinations xs k).map (x :: ·)) ++ combinations xs (k + 1)

/-- The tuple index a row gets for a column selection, as the verifier's
inner loop accumulates it: `tuple_index += points[i][col] * levels^power`
with `power` the position of `col` inside the selection. -/
def tupleIndex (levels : Nat) (row : List Nat) (selection : List Nat) : Nat :=
  selection.enum.foldl
    (fun tuple_index pc => tuple_index + row.getD pc.2 0 * levels ^ pc.1) 0

/-- `verify` from `oa.rs`: reject a matrix whose column count disagrees with
`factors`; otherwise, for every combination of `strength` columns, tally the
tuple index of every row and demand that each of the `levels^strength`
possible indices occurs exactly `index` times. -/
def verify (oa : OArr) : Bool :=
  if oa.points.ncols ≠ oa.factors then false
  else
    (combinations (List.range oa.factors) oa.strength).all fun selection =>
      (List.range (oa.levels ^ oa.strength)).all fun tuple_idx =>
        oa.points.rows.countP
          (fun row => tupleIndex oa.levels row selection == tuple_idx)
          == oa.index

/-- Left fold of repeated addition is the sum of the mapped list. -/
theorem foldl_add_map {α : Type} (f : α → Nat) :
    ∀ (l : List α) (a : Nat),
      l.foldl (fun acc x => acc + f x) a = a + (l.map f).sum := by
  intro l
  induction l with
  | nil => intro a; simp
  | cons x xs ih =>
      intro a
      simp [List.foldl_cons, ih, Nat.add_assoc]

/-- The accumulated tuple index is the weighted sum
`Σ_k row[col_k] * levels^k` over the selection. -/
theorem tupleIndex_eq_sum (levels : Nat) (row : List Nat)
    (selection : List Nat) :
    tupleIndex levels row selection =
      (selection.enum.map fun pc => row.getD pc.2 0 * levels ^ pc.1).sum := by
  unfold tupleIndex
  rw [foldl_add_map (fun pc => row.getD pc.2 0 * levels ^ pc.1)
    selection.enum 0]
  simp

/-- C2: for every OA whose point matrix has as many columns as its declared
factors, `verify` returns `true` if and only if, for every combination of
`strength` columns out of `factors`, every one of the `levels^strength`
possible tuple indices (encoding a row's projection over the chosen columns
as `Σ_k points[row][col_k] * levels^k`) is attained by exactly `index` of
the rows. -/
theorem spec_c2_verify_iff (oa : OArr)
    (hshape : oa.points.ncols = oa.factors) :
    verify oa = true ↔
      ∀ selection ∈ combinations (List.range oa.factors) oa.strength,
        ∀ tuple_idx < oa.levels ^ oa.strength,
          (oa.points.rows.filter fun row =>
            (selection.enum.map fun pc =>
              row.getD pc.2 0 * oa.levels ^ pc.1).sum = tuple_idx).length
            = oa.index := by
  unfold verify
  rw [if_neg (by simp [hshape])]
  simp only [List.all_eq_true, beq_iff_eq, List.mem_range]
  constructor
  · intro h selection hsel tuple_idx htup
    have := h selection hsel tuple_idx htup
    rw [List.countP_eq_length_filter] at this
    rw [← this]
    refine congrArg List.length (List.filter_congr fun row _ => ?_)
    rw [tupleIndex_eq_sum]
    exact Bool.coe_iff_coe.mp (by simp)
  · intro h selection hsel tuple_idx htup
    have := h selection hsel tuple_idx htup
    rw [List.countP_eq_length_filter, ← this]
    refine congrArg List.length (List.filter_congr fun row _ => ?_)
    rw [tupleIndex_eq_sum]
    exact Bool.coe_iff_coe.mp (by simp)

/-- Witness for C2 at the strength-2 ground-truth array of `oa.rs`'s own
tests. -/
theorem spec_c2_witness :
    verify ⟨3, 2, 3, 1, ⟨3, [[0, 0, 0], [0, 1, 1], [0, 2, 2], [1, 0, 1],
        [1, 1, 2], [1, 2, 0], [2, 0, 2], [2, 1, 0], [2, 2, 1]]⟩⟩ = true ↔
      ∀ selection ∈ combinations (List.range 3) 2,
        ∀ tuple_idx < 3 ^ 2,
          (([[0, 0, 0], [0, 1, 1], [0, 2, 2], [1, 0, 1], [1, 1, 2],
            [1, 2, 0], [2, 0, 2], [2, 1, 0],
            [2, 2, 1]] : List (List Nat)).filter fun row =>
            (selection.enum.map fun pc =>
              row.getD pc.2 0 * 3 ^ pc.1).sum = tuple_idx).length = 1 :=
  spec_c2_verify_iff _ rfl

/-- The exhaustive tally check of `verify`, run after the shape test has
passed: the stratification scan over all column combinations. -/
def verifyCore (oa : OArr) : Bool :=
  (combinations (List.range oa.factors) oa.strength).all fun selection =>
    (List.range (oa.levels ^ oa.strength)).all fun tuple_idx =>
      oa.points.rows.countP
        (fun row => tupleIndex oa.levels row selection == tuple_idx)
        == oa.index

/-- Modelled from the spec: the final crate's `verify` (its `oa.rs` is not
part of this source tree; only its tests and doc examples, which call
`verify(&oa)?` and `verify(&oa).unwrap()`, are).  Per the spec it has
signature `verify(oa) -> bool | Error` and returns an error exactly when the
point matrix's column count disagrees with the declared `factors`; on every
shape-consistent input it runs the exhaustive check and returns its boolean
verdict. -/
def verifyChecked (oa : OArr) : Except String Bool :=
  if oa.points.ncols ≠ oa.factors then
    .error "shape mismatch"
  else
    .ok (verifyCore oa)

/-- C9: the checked OA verifier returns an error value exactly when the
point matrix's column count disagrees with the declared `factors`; for every
shape-consistent input it returns a boolean verdict, never an error. -/
theorem spec_c9_verify_error_iff_shape (oa : OArr) :
    ((∃ e, verifyChecked oa = .error e) ↔ oa.points.ncols ≠ oa.factors) ∧
    (oa.points.ncols = oa.factors →
      verifyChecked oa = .ok (verifyCore oa)) := by
  constructor
  · constructor
    · rintro ⟨e, he⟩
      intro hshape
      unfold verifyChecked at he
      rw [if_neg (by simp [hshape])] at he
      exact Except.noConfusion he
    · intro hshape
      refine ⟨"shape mismatch", ?_⟩
      unfold verifyChecked
      rw [if_pos hshape]
  · intro hshape
    unfold verifyChecked
    rw [if_neg (by simp [hshape])]

/-- Witness for C9 at the 4×2 Bose array (shape-consistent, so an `Ok`
boolean comes back). -/
theorem spec_c9_witness :
    verifyChecked ⟨2, 2, 2, 1, ⟨2, [[0, 0], [0, 1], [1, 0], [1, 1]]⟩⟩ =
      .ok (verifyCore ⟨2, 2, 2, 1, ⟨2, [[0, 0], [0, 1], [1, 0], [1, 1]]⟩⟩) :=
  (spec_c9_verify_error_iff_shape _).2 rfl

/-! ## The SOA verifier (`soa.rs`) -/

/-- `sum_perms_helper` from `soa.rs`: when the remaining target is zero the
current stack is recorded; then every candidate part `k` from the last
recorded part (or `1`) up to `sum` is pushed and recursed on whenever it
fits in the remaining target.  (Rust's guard is `k <= reduced_num` alone;
`1 <= k` always holds there because every pushed part is at least the
previous one, which starts at `1`, and it is what makes the recursion
terminate.) -/
def sum_perms_helper (sum : Nat) : Nat → Nat → List Nat → List (List Nat)
  | 0, _, _ => []
  | fuel + 1, reduced, arr =>
      (if reduced = 0 then [arr] else []) ++
        ((List.range' (arr.getLastD 1) (sum + 1 - arr.getLastD 1)).map
          fun k =>
            if 1 ≤ k ∧ k ≤ reduced then
              sum_perms_helper sum fuel (reduced - k) (arr ++ [k])
            else []).flatten

/-- `sum_perms` from `soa.rs`: all non-decreasing integer partitions of
`sum`, via the recursive helper.  The fuel `sum + 1` bounds the recursion
depth, which never exceeds it because every recursive call removes at least
one unit from the remaining target. -/
def sum_perms (sum : Nat) : List (List Nat) :=
  sum_perms_helper sum (sum + 1) sum []

/-- `itertools`-style `multi_cartesian_product` of a list of lists, first
factor varying slowest. -/
def multiCartesianProduct {α : Type} : List (List α) → List (List α)
  | [] => [[]]
  | l :: ls => l.flatMap fun x => (multiCartesianProduct ls).map (x :: ·)

/-- `verify` from `soa.rs` (the SOA verifier).  For each non-decreasing
partition of the strength, for each element of
`curr_strata.iter().combinations(curr_strata.len())` (a single combination:
the partition itself), and for each combination of as many columns as
parts: divide each chosen column by `base^(strength - part)`, then demand
that every reduced row is an expected tuple, that every expected tuple
(the cartesian product of the ranges `0..base^part`) appears at least once,
and that all the appearance counts agree. -/
def soaVerify (soa : SOArr) : Bool :=
  (sum_perms soa.strength).all fun curr_strata =>
    (combinations curr_strata curr_strata.length).all fun strata_perm =>
      let expected_combos :=
        multiCartesianProduct (strata_perm.map fun x =>
          List.range (soa.base ^ x))
      (combinations (List.range soa.points.ncols) strata_perm.length).all
        fun col_combo =>
          let reduced := soa.points.rows.map fun row =>
            (strata_perm.zip col_combo).map fun pc =>
              row.getD pc.2 0 / soa.base ^ (soa.strength - pc.1)
          reduced.all (fun point => expected_combos.contains point) &&
            expected_combos.all (fun key => 1 ≤ reduced.count key) &&
            ((expected_combos.map fun key => reduced.count key).dedup.length
              ≤ 1)

/-- An 8-run, 2-column, base-2, strength-3 SOA candidate that is balanced
for every partition taken in its sorted order but not for the permuted
assignment `(2, 1)` of the partition `(1, 2)`. -/
def soaCex : SOArr :=
  ⟨3, 2, ⟨2, [[0, 0], [1, 2], [2, 5], [3, 7], [4, 1], [5, 3], [6, 4],
    [7, 6]]⟩⟩

/-- C3 fails on the code: the SOA verifier accepts `soaCex` even though the
claim's condition rejects it.  The verifier's inner
`curr_strata.iter().combinations(curr_strata.len())` yields the single
sorted partition rather than all its permutations (despite the comment in
the source claiming every permutation is produced), so the permuted
assignment `(2, 1)` of the partition `(1, 2)` is never checked: dividing
column 0 by `2^(3-2)` and column 1 by `2^(3-1)` never produces the reduced
tuple `(0, 1)`, so under the claim's condition the array is invalid, yet
`verify` returns `true`. -/
theorem spec_c3_counterexample :
    soaVerify soaCex = true ∧
    (soaCex.points.rows.map fun row =>
      [row.getD 0 0 / 2 ^ (3 - 2), row.getD 1 0 / 2 ^ (3 - 1)]).count [0, 1]
      = 0 := by
  exact ⟨by decide, by decide⟩

/-! ## The He–Tang SOA constructor (`constructors/soa.rs`) -/

/-- `oa_to_goa` from `constructors/soa.rs`.  It panics outright when the
source strength is not 3; it also aborts when `factors ≤ 1`, because both
`m = factors - 1` and the `m - 1` inside
`m_prime = 2 * (m - 1) / (t - 1)` are `usize` subtractions that underflow.
Otherwise it builds an `n × (3 * m_prime)` generalized array whose column
groups of three hold, per group `g`: the source column `g`, the last source
column, and the cyclically shifted source column `(g + 1) % m_prime`. -/
def oa_to_goa (oa : OArr) : Outcome Mat :=
  if oa.strength ≠ 3 then .panicked
  else if oa.factors = 0 then .panicked
  else
    let m := oa.factors - 1
    if m = 0 then .panicked
    else
      let m_prime := 2 * (m - 1) / (oa.strength - 1)
      let goa_factors := oa.strength * m_prime
      .ok ⟨goa_factors, (List.range oa.points.nrows).map fun i =>
        (List.range goa_factors).map fun j =>
          if j % 3 = 0 then oa.points.get i (j / 3)
          else if j % 3 = 1 then oa.points.get i (oa.factors - 1)
          else oa.points.get i ((j / 3 + 1) % m_prime)⟩

/-- `goa_to_soa` from `constructors/soa.rs`: collapse each group of
`strength` generalized columns into one digit,
`res = Σ_offset levels^(strength - offset - 1) * goa[i][col * 3 + offset]`.
The indexing panics (out of bounds) unless every accessed column
`col * 3 + offset` exists in the generalized array. -/
def goa_to_soa (arr : Mat) (strength levels m_prime : Nat) : Outcome Mat :=
  if (List.range m_prime).all (fun col =>
      (List.range strength).all fun offset =>
        col * 3 + offset < arr.ncols) then
    .ok ⟨m_prime, (List.range arr.nrows).map fun i =>
      (List.range m_prime).map fun col =>
        ((List.range strength).map fun offset =>
          levels ^ (strength - offset - 1) *
            arr.get i (col * 3 + offset)).sum⟩
  else .panicked

/-- `HeTang::gen`: compute `m_prime = factors - 1` (a `usize` subtraction,
underflowing when `factors = 0`), run the OA→GOA and GOA→SOA passes, and
wrap the result in the SOA metadata.  There is no `Err` path: every failure
is a panic. -/
def heTangGen (oa : OArr) : Outcome SOArr :=
  if oa.factors = 0 then .panicked
  else
    let m_prime := oa.factors - 1
    match oa_to_goa oa with
    | .ok goa =>
        match goa_to_soa goa oa.strength oa.levels m_prime with
        | .ok pts => .ok ⟨oa.strength, oa.levels, pts⟩
        | _ => .panicked
    | _ => .panicked

/-- C4 fails on the code: on an OA of strength 2 the He–Tang constructor
does not return an `UnsupportedParams`/`NotImplemented` error value; the
`oa_to_goa` pass panics
(`"This method has not been implemented for any orthogonal arrays of
strength != 3"`) even though `gen` returns an `SOAResult` that could carry
an error. -/
theorem spec_c4_counterexample :
    heTangGen ⟨2, 2, 2, 1, ⟨2, [[0, 0], [0, 1], [1, 0], [1, 1]]⟩⟩ =
      .panicked ∧
    heTangGen ⟨2, 2, 2, 1, ⟨2, [[0, 0], [0, 1], [1, 0], [1, 1]]⟩⟩ ≠
      .err := by
  exact ⟨by decide, by decide⟩

/-- The strength-3, 4-factor, base-2 OA from the crate's own
`test_soa_pipeline` test (the worked example of the He–Tang paper). -/
def oaVicky : OArr :=
  ⟨2, 3, 4, 1, ⟨4, [[0, 0, 0, 0], [0, 0, 1, 1], [0, 1, 0, 1], [0, 1, 1, 0],
    [1, 0, 0, 1], [1, 0, 1, 0], [1, 1, 0, 0], [1, 1, 1, 1]]⟩⟩

/-- C5 fails on the code: on the crate's own strength-3 test OA, `gen`
panics instead of returning an 8×3 SOA.  `oa_to_goa` computes
`m = factors - 1` and then `m_prime = 2 * (m - 1) / (t - 1)`, i.e.
`m_prime = factors - 2` for `t = 3`, so the generalized array has
`3 * (factors - 2) = 6` columns, while `gen` passes its own
`m_prime = factors - 1 = 3` to `goa_to_soa`, which then reads columns up to
index `3 * 2 + 2 = 8` — out of bounds. -/
theorem spec_c5_counterexample :
    heTangGen oaVicky = .panicked ∧
    ∀ soa : SOArr, heTangGen oaVicky ≠ .ok soa := by
  have h : heTangGen oaVicky = .panicked := by decide
  exact ⟨h, fun soa hc => by rw [h] at hc; exact Outcome.noConfusion hc⟩

/-! ## The Liu–Liu SOA constructor (`constructors/liu_liu.rs`) -/

/-- `r_1.slice_mut(s![r..r+1, c..c+1]).assign(&v)` where `v` has shape
`vh × vw`: the slice panics when it exceeds the matrix, and the assignment
panics when `v` cannot be broadcast to the 1×1 window (which needs
`vh = 1` and `vw = 1`); otherwise the window receives `v`'s entry
`vtop`. -/
def assign1x1 (mat : Mat) (r c vh vw vtop : Nat) : Outcome Mat :=
  if r + 1 ≤ mat.nrows ∧ c + 1 ≤ mat.ncols then
    if vh = 1 ∧ vw = 1 then
      .ok ⟨mat.ncols, mat.rows.set r ((mat.rows.getD r []).set c vtop)⟩
    else .panicked
  else .panicked

/-- `r_1.slice_mut(s![.., c]).assign(&d)`: panics when column `c` does not
exist or when `d`'s length disagrees with the column height; otherwise
writes `d` down column `c`. -/
def setColumn (mat : Mat) (c : Nat) (d : List Nat) : Outcome Mat :=
  if c < mat.ncols ∧ d.length = mat.nrows then
    .ok ⟨mat.ncols, (List.range mat.nrows).map fun i =>
      (mat.rows.getD i []).set c (d.getD i 0)⟩
  else .panicked

/-- The `d` vector of `gen_even_r`: start from zeros of length `m`, set
`d[i] = s^i` for `i < q`, then set `d[m - i] = s^(t - i)` for
`i = 1, ..., q` (the second loop overwrites the first where they
overlap). -/
def dVector (s t m q : Nat) : List Nat :=
  (List.range m).map fun i =>
    if 1 ≤ m - i ∧ m - i ≤ q then s ^ (t - (m - i))
    else if i < q then s ^ i
    else 0

/-- `LiuLiu::gen_even_r`: allocate the reduction matrix with
`(m, 2k)` columns when `extra_col` holds and `(m, 2k + 1)` otherwise, then
for each of the `k` blocks assign the `t × 2` antidiagonal matrix `V_1`
into the 1×1 window at `(k * i, k * t)`, and finally (when `extra_col`)
assign the `d` vector into column `2k`. -/
def gen_even_r (t m s : Nat) (extra_col : Bool) : Outcome Mat :=
  let k := m / t
  let q := m % t
  let ncols := if extra_col then 2 * k else 2 * k + 1
  let r1 : Mat := ⟨ncols, List.replicate m (List.replicate ncols 0)⟩
  let afterLoop : Outcome Mat := (List.range k).foldl
    (fun (acc : Outcome Mat) i =>
      match acc with
      | .ok mcur => assign1x1 mcur (k * i) (k * t) t 2 0
      | o => o)
    (Outcome.ok r1)
  match afterLoop with
  | .ok mcur =>
      if extra_col then setColumn mcur (2 * k) (dVector s t m q)
      else .ok mcur
  | o => o

/-- `oa.points * r` in `LiuLiu::gen`: `ndarray`'s `*` operator is
element-wise multiplication, broadcasting the right-hand side to the shape
of the left-hand side (a panic when that is impossible) — not a matrix
product. -/
def elementwiseMul (a b : Mat) : Outcome Mat :=
  if (b.nrows = a.nrows ∨ b.nrows = 1) ∧ (b.ncols = a.ncols ∨ b.ncols = 1)
  then
    .ok ⟨a.ncols, (List.range a.nrows).map fun i =>
      (List.range a.ncols).map fun j =>
        a.get i j * b.get (if b.nrows = 1 then 0 else i)
          (if b.ncols = 1 then 0 else j)⟩
  else .panicked

/-- `LiuLiu::gen`: decompose `m = k * t + q`, set
`extra_col = (q >= t / 2)`, build the reduction matrix, and combine it with
the points by `ndarray`'s `*`.  The `t = 0` guard models the `u32`
divisions `t / 2` and `m % t`, which panic on a zero strength. -/
def liuLiuGen (oa : OArr) : Outcome SOArr :=
  if oa.strength = 0 then .panicked
  else
    let extra_col := decide (oa.factors % oa.strength ≥ oa.strength / 2)
    match gen_even_r oa.strength oa.factors oa.levels extra_col with
    | .ok r =>
        match elementwiseMul oa.points r with
        | .ok pts => .ok ⟨oa.strength, oa.levels, pts⟩
        | _ => .panicked
    | _ => .panicked

/-- C6 fails on the code: with strength `t = 2` and `m = 3` factors we have
`k = 1`, `q = 1 ≥ t / 2`, so the claim requires a `3 × 3` reduction matrix
(`2k + 1` columns) and `points × R`.  The code instead allocates `R` with
only `2k = 2` columns when `extra_col` holds (the branch polarity is
inverted), so already the first block assignment slices columns
`k * t .. k * t + 1 = 2..3` out of bounds and panics; `gen` therefore
panics instead of returning an SOA. -/
theorem spec_c6_counterexample :
    liuLiuGen ⟨2, 2, 3, 1, ⟨3, [[0, 0, 0]]⟩⟩ = .panicked ∧
    ∀ soa : SOArr, liuLiuGen ⟨2, 2, 3, 1, ⟨3, [[0, 0, 0]]⟩⟩ ≠ .ok soa := by
  have h : liuLiuGen ⟨2, 2, 3, 1, ⟨3, [[0, 0, 0]]⟩⟩ = .panicked := by decide
  exact ⟨h, fun soa hc => by rw [h] at hc; exact Outcome.noConfusion hc⟩

end Oars

